import Mathlib

/-!
Verification of the markdown-table text engine of the translator plugin
(`src/main.ts`).  The engine manipulates JavaScript strings; we embed the
relevant string primitives over `List Char` (a Lean `String` is a structure
holding `data : List Char`), so that character offsets are character counts.

JS primitives embedded here:
  * `s.split(sep)` for a one-character separator  → `splitOnChar`
  * `arr.join(sep)`                               → `joinWith` / `joinSep`
  * `s.trim()`                                    → `trimCs` (whitespace set
    restricted to the characters that can occur around pipe-table text:
    space, tab, CR, LF; JS additionally trims exotic Unicode spaces, which
    never arise in the claims)
  * `s.toLowerCase()`                             → `lowerCs` (via `Char.toLower`)
  * `s.includes(t)`                               → `containsTok`
  * `arr[i] = v` (with JS array extension by holes, holes rendering as the
    empty string under `join`)                    → `setCell`
  * `s.slice(a, b)` with `0 ≤ a ≤ b`              → `List.take` / `List.drop`

Line terminators are modelled as `'\n'` alone, matching the `split("\n")`
calls throughout the source; for the locator regex, JS `^`, `$` and `.`
additionally treat CR and the two Unicode line/paragraph separators as
line boundaries, a case no document in the claims exercises.
-/

set_option maxRecDepth 4000

namespace TranslatorPlugin

/-- JS whitespace (the subset relevant to the plugin's documents). -/
def isWs (c : Char) : Bool :=
  c == ' ' || c == '\t' || c == '\n' || c == '\r'

/-- JS `s.split(c)` for a single-character separator, JS semantics:
`"".split(c) = [""]`, separators at the ends produce empty segments. -/
def splitOnChar (c : Char) : List Char → List (List Char)
  | [] => [[]]
  | x :: xs =>
    if x = c then [] :: splitOnChar c xs
    else
      match splitOnChar c xs with
      | [] => [[x]]
      | h :: t => (x :: h) :: t

/-- JS `arr.join(c)` for a one-character separator. -/
def joinWith (c : Char) : List (List Char) → List Char
  | [] => []
  | [x] => x
  | x :: y :: xs => x ++ c :: joinWith c (y :: xs)

/-- JS `arr.join(sep)` for an arbitrary separator string. -/
def joinSep (sep : List Char) : List (List Char) → List Char
  | [] => []
  | [x] => x
  | x :: y :: xs => x ++ sep ++ joinSep sep (y :: xs)

/-- JS `s.trim()`: drop whitespace from both ends. -/
def trimCs (cs : List Char) : List Char :=
  ((cs.dropWhile isWs).reverse.dropWhile isWs).reverse

/-- JS `s.toLowerCase()`. -/
def lowerCs (cs : List Char) : List Char := cs.map Char.toLower

/-- JS `hay.includes(needle)`. -/
def containsTok : List Char → List Char → Bool
  | [], needle => needle.isEmpty
  | h :: t, needle => needle.isPrefixOf (h :: t) || containsTok t needle

/-- JS `arr[i] = v`: in-bounds assignment replaces; out-of-bounds assignment
extends the array, the gap positions being holes that render as the empty
string under `join`. -/
def setCell (cells : List (List Char)) (i : Nat) (v : List Char) :
    List (List Char) :=
  if i < cells.length then cells.set i v
  else cells ++ List.replicate (i - cells.length) [] ++ [v]

/-! ## The Table Locator (`extractMarkdownTables`, `src/main.ts:160-174`)

The source matches the regex `/((?:^\|.*\|$\n?)+)/gm` against the document.
With the `m` flag, `^`/`$` anchor at line boundaries and `.` excludes `\n`,
so one iteration of the group consumes a full line whose first character is
`|` and whose last character is `|` (hence at least two characters), plus
its trailing newline when present.  A match is therefore a maximal run of
consecutive such lines; `match.index`/`regex.lastIndex` delimit the span
including the run's trailing newline, and the stored text is the match
trimmed (`match[1].trim()`). -/

structure TableBlock where
  text : String
  start : Nat
  «end» : Nat
  deriving Repr, DecidableEq

/-- One line of the regex group `^\|.*\|$`: first character `|`, last
character `|`, length at least 2 (the line itself contains no `\n`). -/
def tableLineCs (l : List Char) : Bool :=
  decide (2 ≤ l.length) && l.headD ' ' == '|' && l.getLastD ' ' == '|'

/-- The regex scan over the document's lines.  `fuel` bounds the number of
steps (each step consumes at least one line); the wrapper passes
`lines.length + 1`, which always suffices. -/
def extractAuxF : Nat → List (List Char) → Nat → List TableBlock
  | 0, _, _ => []
  | _ + 1, [], _ => []
  | fuel + 1, l :: rest, pos =>
    if tableLineCs l then
      let run := l :: rest.takeWhile tableLineCs
      let rest' := rest.dropWhile tableLineCs
      let raw := joinWith '\n' run ++ (if rest'.isEmpty then [] else ['\n'])
      { text := ⟨trimCs raw⟩, start := pos, «end» := pos + raw.length } ::
        extractAuxF fuel rest' (pos + raw.length)
    else
      extractAuxF fuel rest (pos + l.length + 1)

/-- Source `extractMarkdownTables(content)` (`src/main.ts:160-174`). -/
def extractMarkdownTables (content : String) : List TableBlock :=
  let ls := splitOnChar '\n' content.data
  extractAuxF (ls.length + 1) ls 0

/-! ## The Table Inspector (`countTableColumns`, `wordExistsInTable`) -/

/-- Source `countTableColumns(tableText)` (`src/main.ts:177-184`): split the first
line on `|`, trim, drop empty pieces, count. -/
def countTableColumns (tableText : String) : Nat :=
  let firstLine := (splitOnChar '\n' tableText.data).headD []
  (((splitOnChar '|' firstLine).map trimCs).filter (fun cell => !cell.isEmpty)).length

/-- Source `wordExistsInTable(tableText, word)` (`src/main.ts:187-198`): keep the
lines whose trimmed text starts with `|`, then for each line from index 2 on
split it on `|`, trim each piece, and compare piece 0 (the segment before
the first pipe) with the word, case-insensitively. -/
def wordExistsInTable (tableText word : String) : Bool :=
  let lines := (splitOnChar '\n' tableText.data).filter
    (fun line => (trimCs line).headD ' ' == '|')
  (lines.drop 2).any (fun line =>
    let cells := (splitOnChar '|' line).map trimCs
    decide (1 < cells.length) && lowerCs (cells.headD []) == lowerCs word.data)

/-! ## The Row Composer (`isEmptyRow`, `appendRowToTable`, and the row
built inline in the `insert-word-row` command) -/

/-- Source `isEmptyRow(row)` (`src/main.ts:201-205`): every `|`-separated cell
trims to the empty string. -/
def isEmptyRowCs (row : List Char) : Bool :=
  ((splitOnChar '|' row).map trimCs).all (fun cell => cell.isEmpty)

/-- The `while` loop of `appendRowToTable`, acting on the reversed line
list: pop the front (= original tail) while more than 2 lines remain and
the front is an empty row. -/
def stripLoop : List (List Char) → List (List Char)
  | [] => []
  | l :: rest =>
    if decide (2 < rest.length + 1) && isEmptyRowCs l then stripLoop rest
    else l :: rest

/-- Remove trailing empty rows while keeping at least 2 lines
(`src/main.ts:211-213`). -/
def stripTrailingEmptyRows (ls : List (List Char)) : List (List Char) :=
  (stripLoop ls.reverse).reverse

/-- Source `appendRowToTable(tableText, newRow)` (`src/main.ts:208-216`). -/
def appendRowToTable (tableText newRow : String) : String :=
  let lines := splitOnChar '\n' tableText.data
  ⟨joinWith '\n' (stripTrailingEmptyRows lines ++ [newRow.data])⟩

/-- The in-flight marker token `<!--ID:${uniqueId}-->`. -/
def markerTok (uniqueId : Nat) : List Char :=
  ("<!--ID:" ++ Nat.repr uniqueId ++ "-->").data

/-- The placeholder cells built by the `insert-word-row` command
(`src/main.ts:84-93`): cell 0 is the word immediately followed by the
marker token, every later cell is `"loading"`. -/
def buildRowCells (word : String) (uniqueId : Nat) (numCols : Nat) :
    List String :=
  (List.range numCols).map (fun i =>
    if i = 0 then word ++ ⟨markerTok uniqueId⟩ else "loading")

/-- The row string `"| " + cells.join(" | ") + " |"` (`src/main.ts:94`). -/
def composeRow (cells : List String) : String :=
  ⟨("| ").data ++ joinSep (" | ").data (cells.map String.data) ++ (" |").data⟩

/-! ## The Document Patcher (inline at `src/main.ts:100-103`) -/

/-- The splice `content.slice(0, start) + updatedTable + content.slice(end)`. -/
def patchDocument (content : String) (start stop : Nat) (t : String) : String :=
  ⟨content.data.take start ++ t.data ++ content.data.drop stop⟩

/-! ## The Cell Resolver (`updateRowCell`, `src/main.ts:362-382`) -/

/-- The cells of a line as the resolver parses them:
`line.split("|").slice(1, -1).map(trim)`. -/
def lineCells (line : List Char) : List (List Char) :=
  (((splitOnChar '|' line).drop 1).dropLast).map trimCs

/-- Rebuild the marked line: split it on `|`, drop the first and last
segments (`slice(1, -1)`), trim every cell, assign `newContent` at
`cellIndex` (JS array extension if out of range), rejoin with
`"| " ... " | " ... " |"`. -/
def updateLine (line : List Char) (cellIndex : Nat) (newContent : List Char) :
    List Char :=
  ("| ").data ++ joinSep (" | ").data (setCell (lineCells line) cellIndex newContent)
    ++ (" |").data

/-- The `for` loop with `break`: rewrite only the first line containing the
token, keep every other line. -/
def replaceFirstLine (tok : List Char) (cellIndex : Nat) (v : List Char) :
    List (List Char) → List (List Char)
  | [] => []
  | l :: rest =>
    if containsTok l tok then updateLine l cellIndex v :: rest
    else l :: replaceFirstLine tok cellIndex v rest

/-- Source `updateRowCell(editor, uniqueId, cellIndex, newContent)`
(`src/main.ts:362-382`), as the document-to-document function it performs
through `editor.getValue`/`editor.setValue`. -/
def updateRowCell (content : String) (uniqueId cellIndex : Nat)
    (newContent : String) : String :=
  ⟨joinWith '\n'
    (replaceFirstLine (markerTok uniqueId) cellIndex newContent.data
      (splitOnChar '\n' content.data))⟩

/-! ## The synchronous part of the `insert-word-row` command
(`src/main.ts:62-105`).  `none` models the aborted paths (no tables found,
word reported as duplicate) in which the editor buffer is not written; the
out-of-range table index (on which JS would throw) is also `none`. -/

def insertWordRow (content : String) (selectedIndex : Nat) (word : String)
    (uniqueId : Nat) : Option String :=
  let tables := extractMarkdownTables content
  if tables.isEmpty then none
  else
    match tables.get? selectedIndex with
    | none => none
    | some tableBlock =>
      if wordExistsInTable tableBlock.text word then none
      else
        let numCols := countTableColumns tableBlock.text
        let newRow := composeRow (buildRowCells word uniqueId numCols)
        let updatedTable := appendRowToTable tableBlock.text newRow
        some (patchDocument content tableBlock.start tableBlock.«end» updatedTable)

/-! ## The Translation Gateway boundary (`fetchGeminiResult`,
`src/main.ts:344-359`, and the `.then` callback at `src/main.ts:122-129`).
The backend call is modelled as a delivered outcome: `Except.ok raw` for a
response with raw text `raw`, `Except.error e` for a thrown/rejected call,
which the gateway catches and converts to `""`. -/

def fetchGeminiResult (backend : Except String String) : String :=
  match backend with
  | Except.ok raw => ⟨trimCs ((splitOnChar '\n' raw.data).headD [])⟩
  | Except.error _ => ""

/-- The `.then` continuation: take the first line of the gateway's result
and commit it through `updateRowCell`. -/
def resolveGatewayResult (content : String) (uniqueId cellIndex : Nat)
    (backend : Except String String) : String :=
  let result := fetchGeminiResult backend
  let shortResult : String := ⟨(splitOnChar '\n' result.data).headD []⟩
  updateRowCell content uniqueId cellIndex shortResult

/-! ## Claim-side predicates (from the spec's words, for comparison with
the source-derived definitions) -/

/-- Claim side, from the spec sentence "a line belongs to a table if
trimmed it starts and ends with `|`". -/
def specTableLine (l : String) : Bool :=
  (trimCs l.data).headD ' ' == '|' && (trimCs l.data).getLastD ' ' == '|'

/-- The maximal runs of consecutive table lines, the reference description
of what one regex match consumes. -/
def maximalRunsF : Nat → List (List Char) → List (List (List Char))
  | 0, _ => []
  | _ + 1, [] => []
  | fuel + 1, l :: rest =>
    if tableLineCs l then
      (l :: rest.takeWhile tableLineCs) ::
        maximalRunsF fuel (rest.dropWhile tableLineCs)
    else
      maximalRunsF fuel rest

def maximalRuns (ls : List (List Char)) : List (List (List Char)) :=
  maximalRunsF (ls.length + 1) ls

/-! # Lemmas -/

/-! ## `splitOnChar` / `joinWith` -/

theorem splitOnChar_ne_nil (c : Char) (cs : List Char) : splitOnChar c cs ≠ [] := by
  induction cs with
  | nil => simp [splitOnChar]
  | cons x xs ih =>
    simp only [splitOnChar]
    split
    · simp
    · split
      · simp
      · simp

theorem not_mem_of_mem_splitOnChar {c : Char} {cs l : List Char}
    (h : l ∈ splitOnChar c cs) : c ∉ l := by
  induction cs generalizing l with
  | nil => simp [splitOnChar] at h; simp [h]
  | cons x xs ih =>
    simp only [splitOnChar] at h
    split at h
    · rcases (List.mem_cons).1 h with h' | h'
      · simp [h']
      · exact ih h'
    · rename_i hxc
      rcases hsp : splitOnChar c xs with _ | ⟨h0, t0⟩
      · exact absurd hsp (splitOnChar_ne_nil c xs)
      · rw [hsp] at h
        rcases (List.mem_cons).1 h with h' | h'
        · subst h'
          intro hmem
          rcases (List.mem_cons).1 hmem with h'' | h''
          · exact hxc h''.symm
          · exact ih (by rw [hsp]; exact List.mem_cons_self _ _) h''
        · exact ih (by rw [hsp]; exact List.mem_cons_of_mem _ h')

theorem joinWith_splitOnChar (c : Char) (cs : List Char) :
    joinWith c (splitOnChar c cs) = cs := by
  induction cs with
  | nil => rfl
  | cons x xs ih =>
    simp only [splitOnChar]
    split
    · rename_i hxc
      subst hxc
      rcases hsp : splitOnChar x xs with _ | ⟨h0, t0⟩
      · exact absurd hsp (splitOnChar_ne_nil x xs)
      · rw [hsp] at ih
        simp only [joinWith]
        rw [ih]
        rfl
    · rcases hsp : splitOnChar c xs with _ | ⟨h0, t0⟩
      · exact absurd hsp (splitOnChar_ne_nil c xs)
      · rw [hsp] at ih
        cases t0 with
        | nil => simpa [joinWith] using ih
        | cons a b =>
          simp only [joinWith] at ih ⊢
          rw [List.cons_append, ih]

theorem splitOnChar_of_not_mem {c : Char} {cs : List Char} (h : c ∉ cs) :
    splitOnChar c cs = [cs] := by
  induction cs with
  | nil => rfl
  | cons x xs ih =>
    simp only [List.mem_cons, not_or] at h
    have hxc : ¬ x = c := fun he => h.1 he.symm
    rw [splitOnChar, if_neg hxc, ih h.2]

theorem splitOnChar_append_cons (c : Char) {as : List Char} (h : c ∉ as)
    (bs : List Char) :
    splitOnChar c (as ++ c :: bs) = as :: splitOnChar c bs := by
  induction as with
  | nil =>
    rw [List.nil_append, splitOnChar, if_pos rfl]
  | cons a as' ih =>
    simp only [List.mem_cons, not_or] at h
    have hac : ¬ a = c := fun he => h.1 he.symm
    rw [List.cons_append, splitOnChar, if_neg hac, ih h.2]

theorem splitOnChar_joinWith {c : Char} {rs : List (List Char)}
    (hnil : rs ≠ []) (h : ∀ l ∈ rs, c ∉ l) :
    splitOnChar c (joinWith c rs) = rs := by
  induction rs with
  | nil => exact absurd rfl hnil
  | cons r rest ih =>
    cases rest with
    | nil =>
      simpa [joinWith] using splitOnChar_of_not_mem (h r (List.mem_cons_self _ _))
    | cons r' rest' =>
      have hr : c ∉ r := h r (List.mem_cons_self _ _)
      have step : splitOnChar c (joinWith c (r' :: rest')) = r' :: rest' :=
        ih (by simp) (fun l hl => h l (List.mem_cons_of_mem _ hl))
      show splitOnChar c (r ++ c :: joinWith c (r' :: rest')) = _
      rw [splitOnChar_append_cons c hr, step]

theorem joinWith_append (c : Char) {as bs : List (List Char)}
    (ha : as ≠ []) (hb : bs ≠ []) :
    joinWith c (as ++ bs) = joinWith c as ++ c :: joinWith c bs := by
  induction as with
  | nil => exact absurd rfl ha
  | cons a as' ih =>
    cases as' with
    | nil =>
      cases bs with
      | nil => exact absurd rfl hb
      | cons b bs' => simp [joinWith]
    | cons a' as'' =>
      have := ih (by simp)
      simp only [List.cons_append, List.append_eq, joinWith] at this ⊢
      rw [this]
      simp

theorem splitOnChar_length_le (c : Char) (cs : List Char) :
    (splitOnChar c cs).length ≤ cs.length + 1 := by
  induction cs with
  | nil => simp [splitOnChar]
  | cons x xs ih =>
    simp only [splitOnChar]
    split
    · simpa using Nat.succ_le_succ ih
    · rcases hsp : splitOnChar c xs with _ | ⟨h0, t0⟩
      · simp
      · rw [hsp] at ih
        simp only [List.length_cons] at ih ⊢
        omega

/-! ## `trimCs` -/

theorem dropWhile_isWs_self {cs : List Char} {a : Char} (hh : cs.head? = some a)
    (ha : isWs a = false) : cs.dropWhile isWs = cs := by
  cases cs with
  | nil => simp at hh
  | cons x t =>
    rw [List.head?_cons] at hh
    injection hh with hx
    subst hx
    rw [List.dropWhile_cons, if_neg (by simp [ha])]

theorem trimCs_eq_self {cs : List Char} {a b : Char} (hh : cs.head? = some a)
    (ha : isWs a = false) (hl : cs.getLast? = some b) (hb : isWs b = false) :
    trimCs cs = cs := by
  unfold trimCs
  rw [dropWhile_isWs_self hh ha,
    dropWhile_isWs_self (by rw [List.head?_reverse]; exact hl) hb,
    List.reverse_reverse]

theorem trimCs_append_newline {cs : List Char} {a b : Char}
    (hh : cs.head? = some a) (ha : isWs a = false)
    (hl : cs.getLast? = some b) (hb : isWs b = false) :
    trimCs (cs ++ ['\n']) = cs := by
  have hne : cs ≠ [] := by
    intro h; rw [h] at hh; simp at hh
  unfold trimCs
  have h1 : (cs ++ ['\n']).head? = some a := by
    rw [List.head?_append, hh]; rfl
  rw [dropWhile_isWs_self h1 ha, List.reverse_append]
  have h2 : (['\n'].reverse ++ cs.reverse).dropWhile isWs = cs.reverse.dropWhile isWs := by
    rfl
  rw [h2, dropWhile_isWs_self (by rw [List.head?_reverse]; exact hl) hb,
    List.reverse_reverse]

/-! ## Ends of `joinWith` -/

theorem joinWith_head? {c : Char} {r : List Char} (rs : List (List Char))
    (hr : r ≠ []) : (joinWith c (r :: rs)).head? = r.head? := by
  cases rs with
  | nil => rfl
  | cons r' rest =>
    show (r ++ c :: joinWith c (r' :: rest)).head? = r.head?
    rw [List.head?_append]
    cases r with
    | nil => exact absurd rfl hr
    | cons x t => rfl

theorem joinWith_getLast? {c : Char} {rs : List (List Char)} {r : List Char}
    (h : rs.getLast? = some r) (hr : r ≠ []) :
    (joinWith c rs).getLast? = r.getLast? := by
  induction rs with
  | nil => simp at h
  | cons x xs ih =>
    cases xs with
    | nil =>
      simp only [List.getLast?_singleton, Option.some.injEq] at h
      subst h
      rfl
    | cons y ys =>
      have h' : (y :: ys).getLast? = some r := by
        rw [List.getLast?_cons_cons] at h; exact h
      have hJ : (joinWith c (y :: ys)).getLast? = r.getLast? := ih h'
      obtain ⟨b, hb⟩ : ∃ b, r.getLast? = some b := by
        have : r.getLast?.isSome = true := List.getLast?_isSome.2 hr
        exact Option.isSome_iff_exists.1 this
      show (x ++ c :: joinWith c (y :: ys)).getLast? = _
      rw [List.getLast?_append,
        show (c :: joinWith c (y :: ys)) = [c] ++ joinWith c (y :: ys) from rfl,
        List.getLast?_append, hJ, hb]
      rfl

/-! ## `tableLineCs` and the trimmed text of a run -/

theorem tableLineCs_ends {l : List Char} (h : tableLineCs l = true) :
    l.head? = some '|' ∧ l.getLast? = some '|' ∧ l ≠ [] := by
  unfold tableLineCs at h
  simp only [Bool.and_eq_true, decide_eq_true_eq, beq_iff_eq] at h
  obtain ⟨⟨hlen, hhead⟩, hlast⟩ := h
  have hne : l ≠ [] := by
    intro he; rw [he] at hlen; simp at hlen
  refine ⟨?_, ?_, hne⟩
  · cases l with
    | nil => exact absurd rfl hne
    | cons x t => rw [List.head?_cons]; simp only [List.headD_cons] at hhead; rw [hhead]
  · rw [List.getLastD_eq_getLast?] at hlast
    obtain ⟨b, hb⟩ : ∃ b, l.getLast? = some b := by
      have : l.getLast?.isSome = true := List.getLast?_isSome.2 hne
      exact Option.isSome_iff_exists.1 this
    rw [hb] at hlast ⊢
    simp only [Option.getD_some] at hlast
    rw [hlast]

theorem run_join_ends {run : List (List Char)} (hne : run ≠ [])
    (hall : ∀ l ∈ run, tableLineCs l = true) :
    (joinWith '\n' run).head? = some '|' ∧
      (joinWith '\n' run).getLast? = some '|' := by
  cases run with
  | nil => exact absurd rfl hne
  | cons r rs =>
    have hr := tableLineCs_ends (hall r (List.mem_cons_self _ _))
    constructor
    · rw [joinWith_head? rs hr.2.2, hr.1]
    · obtain ⟨lst, hlst⟩ : ∃ lst, (r :: rs).getLast? = some lst := by
        have : (r :: rs).getLast?.isSome = true := List.getLast?_isSome.2 (by simp)
        exact Option.isSome_iff_exists.1 this
      have hmem : lst ∈ r :: rs := List.mem_of_mem_getLast? hlst
      have hlstTL := tableLineCs_ends (hall lst hmem)
      rw [joinWith_getLast? hlst hlstTL.2.2, hlstTL.2.1]

theorem trim_raw {run : List (List Char)} (hne : run ≠ [])
    (hall : ∀ l ∈ run, tableLineCs l = true) {opt : List Char}
    (hopt : opt = [] ∨ opt = ['\n']) :
    trimCs (joinWith '\n' run ++ opt) = joinWith '\n' run := by
  obtain ⟨hh, hl⟩ := run_join_ends hne hall
  rcases hopt with h | h
  · rw [h, List.append_nil]
    exact trimCs_eq_self hh rfl hl rfl
  · rw [h]
    exact trimCs_append_newline hh rfl hl rfl

/-! ## The Locator scan: correspondence with maximal runs, and offsets -/

theorem extractAuxF_nil (f pos : Nat) : extractAuxF f [] pos = [] := by
  cases f <;> rfl

theorem maximalRunsF_nil (f : Nat) : maximalRunsF f [] = [] := by
  cases f <;> rfl

theorem run_all_tableLine {l : List Char} {rest : List (List Char)}
    (hl : tableLineCs l = true) :
    ∀ x ∈ l :: rest.takeWhile tableLineCs, tableLineCs x = true := by
  intro x hx
  rcases (List.mem_cons).1 hx with h | h
  · rw [h]; exact hl
  · exact List.mem_takeWhile_imp h

theorem dropWhile_length_lt {l : List Char} {rest : List (List Char)} {f : Nat}
    (h : (l :: rest).length < f + 1) :
    (rest.dropWhile tableLineCs).length < f := by
  have h1 : (rest.dropWhile tableLineCs).length ≤ rest.length :=
    (List.dropWhile_sublist _).length_le
  simp only [List.length_cons] at h
  omega

theorem extractAuxF_texts : ∀ (f : Nat) (ls : List (List Char)) (pos : Nat),
    ls.length < f →
    (extractAuxF f ls pos).map (fun b => b.text.data)
      = (maximalRunsF f ls).map (joinWith '\n') := by
  intro f
  induction f with
  | zero => intro ls pos h; omega
  | succ f ih =>
    intro ls pos h
    cases ls with
    | nil => rfl
    | cons l rest =>
      by_cases hl : tableLineCs l = true
      · simp only [extractAuxF, maximalRunsF, if_pos hl, List.map_cons]
        have hhead : trimCs (joinWith '\n' (l :: rest.takeWhile tableLineCs) ++
            (if (rest.dropWhile tableLineCs).isEmpty then [] else ['\n']))
            = joinWith '\n' (l :: rest.takeWhile tableLineCs) := by
          apply trim_raw (by simp) (run_all_tableLine hl)
          cases (rest.dropWhile tableLineCs).isEmpty <;> simp
        rw [hhead, ih _ _ (dropWhile_length_lt h)]
      · simp only [extractAuxF, maximalRunsF, if_neg hl]
        exact ih _ _ (by simp only [List.length_cons] at h; omega)

theorem extractAuxF_offsets : ∀ (f : Nat) (ls : List (List Char)) (pos : Nat)
    (b : TableBlock), ls.length < f → b ∈ extractAuxF f ls pos →
    pos ≤ b.start ∧ b.start ≤ b.«end» ∧
      b.«end» ≤ pos + (joinWith '\n' ls).length ∧
      (((joinWith '\n' ls).drop (b.start - pos)).take (b.«end» - b.start)
          = b.text.data ∨
       ((joinWith '\n' ls).drop (b.start - pos)).take (b.«end» - b.start)
          = b.text.data ++ ['\n']) := by
  intro f
  induction f with
  | zero => intro ls pos b h; omega
  | succ f ih =>
    intro ls pos b h hb
    cases ls with
    | nil => rw [extractAuxF_nil] at hb; simp at hb
    | cons l rest =>
      by_cases hl : tableLineCs l = true
      · simp only [extractAuxF, if_pos hl] at hb
        have hsplit : (l :: rest.takeWhile tableLineCs) ++ rest.dropWhile tableLineCs
            = l :: rest := by
          rw [List.cons_append, List.takeWhile_append_dropWhile]
        rcases hrest' : rest.dropWhile tableLineCs with _ | ⟨r0, rs⟩
        · -- the run reaches the end of the document
          rw [hrest'] at hb hsplit
          rw [List.append_nil] at hsplit
          simp only [List.isEmpty_nil, if_true, List.append_nil,
            extractAuxF_nil] at hb
          rcases (List.mem_cons).1 hb with hb0 | hb0
          swap
          · simp at hb0
          have htext : trimCs (joinWith '\n' (l :: rest.takeWhile tableLineCs) ++ [])
              = joinWith '\n' (l :: rest.takeWhile tableLineCs) :=
            trim_raw (by simp) (run_all_tableLine hl) (Or.inl rfl)
          rw [List.append_nil] at htext
          subst hb0
          refine ⟨Nat.le_refl _, by simp, by rw [hsplit], ?_⟩
          left
          simp only [Nat.sub_self, List.drop_zero, Nat.add_sub_cancel_left]
          rw [← hsplit, htext]
          exact List.take_length _
        · -- the run is followed by a non-table line
          rw [hrest'] at hb hsplit
          simp only [List.isEmpty_cons, Bool.false_eq_true, if_false] at hb
          have hraw : (joinWith '\n' (l :: rest.takeWhile tableLineCs) ++ ['\n'])
              ++ joinWith '\n' (r0 :: rs) = joinWith '\n' (l :: rest) := by
            rw [← hsplit, joinWith_append '\n' (by simp) (by simp)]
            simp
          have htext : trimCs (joinWith '\n' (l :: rest.takeWhile tableLineCs) ++ ['\n'])
              = joinWith '\n' (l :: rest.takeWhile tableLineCs) :=
            trim_raw (by simp) (run_all_tableLine hl) (Or.inr rfl)
          rcases (List.mem_cons).1 hb with hb0 | hb0
          · subst hb0
            refine ⟨Nat.le_refl _, by simp, ?_, ?_⟩
            · rw [← hraw]
              simp only [List.length_append]
              omega
            · right
              simp only [Nat.sub_self, List.drop_zero, Nat.add_sub_cancel_left]
              rw [← hraw, htext, List.take_left]
          · -- a block of the rest of the scan
            have hlen : (r0 :: rs).length < f := by
              rw [← hrest']; exact dropWhile_length_lt h
            obtain ⟨h1, h2, h3, h4⟩ := ih (r0 :: rs)
              (pos + (joinWith '\n' (l :: rest.takeWhile tableLineCs) ++ ['\n']).length)
              b hlen hb0
            have hstart : pos ≤ b.start := by omega
            refine ⟨hstart, h2, ?_, ?_⟩
            · rw [← hraw]
              simp only [List.length_append] at h3 ⊢
              omega
            · have hdrop : (joinWith '\n' (l :: rest)).drop (b.start - pos)
                  = (joinWith '\n' (r0 :: rs)).drop
                    (b.start - (pos + (joinWith '\n' (l :: rest.takeWhile tableLineCs)
                      ++ ['\n']).length)) := by
                rw [← hraw]
                have harith : b.start - pos
                    = (joinWith '\n' (l :: rest.takeWhile tableLineCs) ++ ['\n']).length
                      + (b.start - (pos + (joinWith '\n' (l :: rest.takeWhile tableLineCs)
                        ++ ['\n']).length)) := by
                  omega
                rw [harith, ← List.drop_drop, List.drop_left]
              rw [hdrop]
              exact h4
      · simp only [extractAuxF, if_neg hl] at hb
        rcases rest with _ | ⟨r0, rs⟩
        · rw [extractAuxF_nil] at hb; simp at hb
        · have hlen : (r0 :: rs).length < f := by
            simp only [List.length_cons] at h ⊢; omega
          obtain ⟨h1, h2, h3, h4⟩ := ih (r0 :: rs) (pos + l.length + 1) b hlen hb
          have hJ : joinWith '\n' (l :: r0 :: rs)
              = (l ++ ['\n']) ++ joinWith '\n' (r0 :: rs) := by
            show l ++ '\n' :: joinWith '\n' (r0 :: rs) = _
            simp
          have hstart : pos ≤ b.start := by omega
          refine ⟨hstart, h2, ?_, ?_⟩
          · rw [hJ]
            simp only [List.length_append, List.length_singleton] at h3 ⊢
            omega
          · have hdrop : (joinWith '\n' (l :: r0 :: rs)).drop (b.start - pos)
                = (joinWith '\n' (r0 :: rs)).drop (b.start - (pos + l.length + 1)) := by
              rw [hJ]
              have harith : b.start - pos
                  = (l ++ ['\n']).length + (b.start - (pos + l.length + 1)) := by
                simp only [List.length_append, List.length_singleton]
                omega
              rw [harith, ← List.drop_drop, List.drop_left]
            rw [hdrop]
            exact h4

theorem take_slice_drop {cs : List Char} {s e : Nat} (h1 : s ≤ e)
    (_h2 : e ≤ cs.length) :
    cs.take s ++ (cs.drop s).take (e - s) ++ cs.drop e = cs := by
  have hd : cs.drop e = (cs.drop s).drop (e - s) := by
    rw [List.drop_drop]
    congr 1
    omega
  rw [List.append_assoc, hd, List.take_append_drop, List.take_append_drop]

theorem mem_run_tableLine : ∀ (f : Nat) (ls : List (List Char))
    (r : List (List Char)), r ∈ maximalRunsF f ls →
    r ≠ [] ∧ ∀ l ∈ r, tableLineCs l = true ∧ l ∈ ls := by
  intro f
  induction f with
  | zero => intro ls r hr; rw [maximalRunsF] at hr; simp at hr
  | succ f ih =>
    intro ls r hr
    cases ls with
    | nil => rw [maximalRunsF_nil] at hr; simp at hr
    | cons x rest =>
      by_cases hx : tableLineCs x = true
      · rw [maximalRunsF, if_pos hx] at hr
        rcases (List.mem_cons).1 hr with h | h
        · subst h
          refine ⟨by simp, ?_⟩
          intro l hlmem
          refine ⟨run_all_tableLine hx l hlmem, ?_⟩
          rcases (List.mem_cons).1 hlmem with h' | h'
          · rw [h']; exact List.mem_cons_self _ _
          · exact List.mem_cons_of_mem _ ((List.takeWhile_sublist _).subset h')
        · obtain ⟨hne, helts⟩ := ih _ _ h
          refine ⟨hne, fun l hlmem => ?_⟩
          obtain ⟨ht, hm⟩ := helts l hlmem
          exact ⟨ht, List.mem_cons_of_mem _ ((List.dropWhile_sublist _).subset hm)⟩
      · rw [maximalRunsF, if_neg hx] at hr
        obtain ⟨hne, helts⟩ := ih _ _ hr
        refine ⟨hne, fun l hlmem => ?_⟩
        obtain ⟨ht, hm⟩ := helts l hlmem
        exact ⟨ht, List.mem_cons_of_mem _ hm⟩

theorem tableLine_mem_run : ∀ (f : Nat) (ls : List (List Char)) (l : List Char),
    ls.length < f → l ∈ ls → tableLineCs l = true →
    ∃ r ∈ maximalRunsF f ls, l ∈ r := by
  intro f
  induction f with
  | zero => intro ls l h; omega
  | succ f ih =>
    intro ls l h hmem htl
    cases ls with
    | nil => simp at hmem
    | cons x rest =>
      by_cases hx : tableLineCs x = true
      · rw [maximalRunsF, if_pos hx]
        rcases (List.mem_cons).1 hmem with h' | h'
        · exact ⟨_, List.mem_cons_self _ _, by rw [h']; exact List.mem_cons_self _ _⟩
        · have : l ∈ rest.takeWhile tableLineCs ∨ l ∈ rest.dropWhile tableLineCs := by
            rw [← List.mem_append, List.takeWhile_append_dropWhile]
            exact h'
          rcases this with h'' | h''
          · exact ⟨_, List.mem_cons_self _ _, List.mem_cons_of_mem _ h''⟩
          · obtain ⟨r, hr, hlr⟩ := ih _ l (dropWhile_length_lt h) h'' htl
            exact ⟨r, List.mem_cons_of_mem _ hr, hlr⟩
      · rw [maximalRunsF, if_neg hx]
        rcases (List.mem_cons).1 hmem with h' | h'
        · rw [h'] at htl; exact absurd htl hx
        · exact ih _ l (by simp only [List.length_cons] at h; omega) h' htl

theorem extract_texts (D : String) :
    (extractMarkdownTables D).map (fun b => b.text.data)
      = (maximalRuns (splitOnChar '\n' D.data)).map (joinWith '\n') :=
  extractAuxF_texts _ _ 0 (by omega)

theorem extract_textLines (D : String) :
    (extractMarkdownTables D).map (fun b => splitOnChar '\n' b.text.data)
      = maximalRuns (splitOnChar '\n' D.data) := by
  have h1 : (extractMarkdownTables D).map (fun b => splitOnChar '\n' b.text.data)
      = ((extractMarkdownTables D).map (fun b => b.text.data)).map (splitOnChar '\n') := by
    rw [List.map_map]; rfl
  rw [h1, extract_texts, List.map_map]
  have h2 : ∀ r ∈ maximalRuns (splitOnChar '\n' D.data),
      (splitOnChar '\n' ∘ joinWith '\n') r = id r := by
    intro r hr
    obtain ⟨hne, helts⟩ := mem_run_tableLine _ _ r hr
    exact splitOnChar_joinWith hne
      (fun l hl => not_mem_of_mem_splitOnChar ((helts l hl).2))
  rw [List.map_congr_left h2, List.map_id]

/-! # Claim theorems -/

/-- C1, counterexample to the claim as stated: on the document `"| a |\nx"`
the single returned block has `text = "| a |"` but span `[0, 6)` — the span
includes the table's trailing newline while `text` is trimmed, so
`D[0:start) ++ text ++ D[end:)` is `"| a |x"`, not the document. -/
theorem claim_C1_counterexample :
    extractMarkdownTables "| a |\nx" = [⟨"| a |", 0, 6⟩] ∧
    "| a |\nx".data.take 0 ++ "| a |".data ++ "| a |\nx".data.drop 6
      ≠ "| a |\nx".data := by
  constructor
  · decide
  · decide

/-- C1 (amended): `extractMarkdownTables` returns exactly one block per
maximal run of table lines; each block's span `[start, end)` lies inside the
document and the document reconstructs as
`D[0:start) ++ D[start:end) ++ D[end:)`; the substring `D[start:end)` is the
block's `text` itself, or `text` followed by the run's trailing newline when
one is included in the span. -/
theorem claim_C1_amended (D : String) :
    (extractMarkdownTables D).map (fun b => b.text)
      = (maximalRuns (splitOnChar '\n' D.data)).map
          (fun r => (⟨joinWith '\n' r⟩ : String))
    ∧ ∀ b ∈ extractMarkdownTables D,
        b.start ≤ b.«end» ∧ b.«end» ≤ D.data.length ∧
        (D.data.take b.start ++ (D.data.drop b.start).take (b.«end» - b.start)
          ++ D.data.drop b.«end» = D.data) ∧
        ((D.data.drop b.start).take (b.«end» - b.start) = b.text.data ∨
         (D.data.drop b.start).take (b.«end» - b.start) = b.text.data ++ ['\n']) := by
  constructor
  · have h1 : (extractMarkdownTables D).map (fun b => b.text)
        = ((extractMarkdownTables D).map (fun b => b.text.data)).map String.mk := by
      rw [List.map_map]; rfl
    rw [h1, extract_texts, List.map_map]
    rfl
  · intro b hb
    have hJ : joinWith '\n' (splitOnChar '\n' D.data) = D.data :=
      joinWith_splitOnChar '\n' D.data
    obtain ⟨h1, h2, h3, h4⟩ := extractAuxF_offsets _ _ 0 b (by omega) hb
    rw [hJ] at h3 h4
    rw [Nat.sub_zero] at h4
    rw [Nat.zero_add] at h3
    exact ⟨h2, h3, take_slice_drop h2 h3, h4⟩

/-- Witness for C1 (amended), at the document `"| a |\nx"` and its block. -/
theorem claim_C1_amended_witness :
    (0 : Nat) ≤ 6 ∧ 6 ≤ "| a |\nx".data.length ∧
    ("| a |\nx".data.take 0 ++ ("| a |\nx".data.drop 0).take (6 - 0)
      ++ "| a |\nx".data.drop 6 = "| a |\nx".data) ∧
    (("| a |\nx".data.drop 0).take (6 - 0) = "| a |".data ∨
     ("| a |\nx".data.drop 0).take (6 - 0) = "| a |".data ++ ['\n']) :=
  (claim_C1_amended "| a |\nx").2 ⟨"| a |", 0, 6⟩ (by decide)

/-- C8, counterexample to the claim as stated: the claim's line predicate
("trimmed, starts and ends with `|`") holds for the line `" | a |"`, yet on
the document `" | a |"` the locator finds no block at all — the regex
requires the raw, untrimmed line to start and end with the pipe. -/
theorem claim_C8_counterexample :
    specTableLine " | a |" = true ∧ extractMarkdownTables " | a |" = [] ∧
    ¬ ∃ r ∈ maximalRuns (splitOnChar '\n' " | a |".data), " | a |".data ∈ r := by
  refine ⟨by decide, by decide, by decide⟩

/-- C8 (amended): a line of the document belongs to some located table
block iff the raw (untrimmed) line starts with `|`, ends with `|`, and has
at least two characters (`tableLineCs`); each maximal run of consecutive
such lines yields exactly one block (whose lines are exactly the run), a
run of length 1 included. -/
theorem claim_C8_amended (D : String) :
    (extractMarkdownTables D).map (fun b => splitOnChar '\n' b.text.data)
      = maximalRuns (splitOnChar '\n' D.data)
    ∧ ∀ l ∈ splitOnChar '\n' D.data,
        (tableLineCs l = true ↔
          ∃ r ∈ maximalRuns (splitOnChar '\n' D.data), l ∈ r) := by
  refine ⟨extract_textLines D, ?_⟩
  intro l hl
  constructor
  · intro htl
    exact tableLine_mem_run _ _ l (by omega) hl htl
  · intro ⟨r, hr, hlr⟩
    exact ((mem_run_tableLine _ _ r hr).2 l hlr).1

/-- Witness for C8 (amended), at the one-line document `"| a |"` (a run of
length 1: the line is reported as a block even without a separator). -/
theorem claim_C8_amended_witness :
    ("| a |".data ∈ splitOnChar '\n' "| a |".data) ∧
    (tableLineCs "| a |".data = true ↔
      ∃ r ∈ maximalRuns (splitOnChar '\n' "| a |".data), "| a |".data ∈ r) :=
  ⟨by decide, (claim_C8_amended "| a |").2 "| a |".data (by decide)⟩

/-- C7: the Document Patcher returns exactly
`D[0:start) ++ t ++ D[end:)`; the first `start` characters and everything
after the spliced text are byte-identical to the original document. -/
theorem claim_C7 (D : String) (s e : Nat) (t : String) (h1 : s ≤ e)
    (h2 : e ≤ D.data.length) :
    (patchDocument D s e t).data = D.data.take s ++ t.data ++ D.data.drop e ∧
    (patchDocument D s e t).data.take s = D.data.take s ∧
    (patchDocument D s e t).data.drop (s + t.data.length) = D.data.drop e ∧
    (patchDocument D s e t).data.length
      = D.data.length - (e - s) + t.data.length := by
  have hlen : (D.data.take s).length = s := by
    rw [List.length_take]
    omega
  refine ⟨rfl, ?_, ?_, ?_⟩
  · show (D.data.take s ++ t.data ++ D.data.drop e).take s = D.data.take s
    rw [List.append_assoc]
    exact List.take_left' hlen
  · show (D.data.take s ++ t.data ++ D.data.drop e).drop (s + t.data.length)
      = D.data.drop e
    exact List.drop_left' (by rw [List.length_append, hlen])
  · show (D.data.take s ++ t.data ++ D.data.drop e).length = _
    simp only [List.length_append, hlen, List.length_drop]
    omega

/-- Witness for C7 at `D = "hello world"`, span `[2, 5)`, `t = "XY"`. -/
theorem claim_C7_witness :
    (patchDocument "hello world" 2 5 "XY").data
      = "hello world".data.take 2 ++ "XY".data ++ "hello world".data.drop 5 ∧
    (patchDocument "hello world" 2 5 "XY").data.take 2
      = "hello world".data.take 2 ∧
    (patchDocument "hello world" 2 5 "XY").data.drop (2 + "XY".data.length)
      = "hello world".data.drop 5 ∧
    (patchDocument "hello world" 2 5 "XY").data.length
      = "hello world".data.length - (5 - 2) + "XY".data.length :=
  claim_C7 "hello world" 2 5 "XY" (by decide) (by decide)

/-- C6: for a column count `n ≥ 1` the composed placeholder cells are
exactly `n` cells, cell 0 being the word immediately followed (no space) by
the token `<!--ID:m-->` with `m` rendered in decimal, and the remaining
`n - 1` cells all being `"loading"`. -/
theorem claim_C6 (word : String) (m numCols : Nat) (h : 1 ≤ numCols) :
    (buildRowCells word m numCols).length = numCols ∧
    buildRowCells word m numCols
      = (word ++ "<!--ID:" ++ Nat.repr m ++ "-->")
          :: List.replicate (numCols - 1) "loading" := by
  constructor
  · rw [buildRowCells, List.length_map, List.length_range]
  · cases numCols with
    | zero => omega
    | succ k =>
      rw [buildRowCells, List.range_succ_eq_map, List.map_cons, List.map_map,
        if_pos rfl]
      apply (List.cons_eq_cons).2
      constructor
      · show word ++ (⟨markerTok m⟩ : String) = _
        have : (⟨markerTok m⟩ : String) = "<!--ID:" ++ Nat.repr m ++ "-->" := rfl
        rw [this, ← String.append_assoc, ← String.append_assoc]
      · rw [Nat.add_sub_cancel]
        apply List.eq_replicate_iff.2
        refine ⟨by rw [List.length_map, List.length_range], ?_⟩
        intro b hb
        simp only [List.mem_map, Function.comp] at hb
        obtain ⟨i, _, hi⟩ := hb
        simpa using hi.symm

/-- Witness for C6 at `word = "cat"`, `m = 42`, `n = 4`. -/
theorem claim_C6_witness :
    (buildRowCells "cat" 42 4).length = 4 ∧
    buildRowCells "cat" 42 4
      = ("cat" ++ "<!--ID:" ++ Nat.repr 42 ++ "-->")
          :: List.replicate (4 - 1) "loading" :=
  claim_C6 "cat" 42 4 (by decide)

/-! ## The Cell Resolver: first-match replacement -/

theorem replaceFirstLine_not_found {tok v : List Char} {i : Nat} :
    ∀ ls : List (List Char), (∀ l ∈ ls, containsTok l tok = false) →
    replaceFirstLine tok i v ls = ls := by
  intro ls h
  induction ls with
  | nil => rfl
  | cons x xs ih =>
    rw [replaceFirstLine, if_neg (by rw [h x (List.mem_cons_self _ _)]; simp),
      ih (fun l hl => h l (List.mem_cons_of_mem _ hl))]

theorem replaceFirstLine_found {tok v : List Char} {i : Nat} :
    ∀ (ls : List (List Char)) (j : Nat), j < ls.length →
    containsTok (ls.getD j []) tok = true →
    (∀ k, k < j → containsTok (ls.getD k []) tok = false) →
    replaceFirstLine tok i v ls = ls.set j (updateLine (ls.getD j []) i v) := by
  intro ls
  induction ls with
  | nil => intro j hj; simp at hj
  | cons x xs ih =>
    intro j hj hcur hfirst
    cases j with
    | zero =>
      simp only [List.getD_cons_zero] at hcur ⊢
      rw [replaceFirstLine, if_pos hcur]
      rfl
    | succ j' =>
      have hx : containsTok x tok = false := by
        have := hfirst 0 (Nat.succ_pos _)
        simpa using this
      rw [replaceFirstLine, if_neg (by rw [hx]; simp)]
      simp only [List.getD_cons_succ] at hcur ⊢
      rw [ih j' (by simpa using hj) hcur
        (fun k hk => by simpa using hfirst (k + 1) (Nat.succ_lt_succ hk))]
      rfl

/-- C2: `updateRowCell` is a no-op (the document text is returned
unchanged, and the total function cannot throw) when no line contains the
marker token; when some line does, the result is the document whose
first marker-carrying line (index `j`) alone is rebuilt — every line other
than line `j` is byte-identical to the original. -/
theorem claim_C2 (content : String) (id idx : Nat) (val : String) :
    ((∀ l ∈ splitOnChar '\n' content.data,
        containsTok l (markerTok id) = false) →
      updateRowCell content id idx val = content)
    ∧ (∀ j : Nat, j < (splitOnChar '\n' content.data).length →
        containsTok ((splitOnChar '\n' content.data).getD j [])
          (markerTok id) = true →
        (∀ k, k < j → containsTok ((splitOnChar '\n' content.data).getD k [])
          (markerTok id) = false) →
        (updateRowCell content id idx val).data
          = joinWith '\n' ((splitOnChar '\n' content.data).set j
              (updateLine ((splitOnChar '\n' content.data).getD j [])
                idx val.data))
        ∧ ∀ k, k ≠ j →
            ((splitOnChar '\n' content.data).set j
              (updateLine ((splitOnChar '\n' content.data).getD j [])
                idx val.data)).getD k []
              = (splitOnChar '\n' content.data).getD k []) := by
  constructor
  · intro hno
    show (⟨joinWith '\n' (replaceFirstLine (markerTok id) idx val.data
      (splitOnChar '\n' content.data))⟩ : String) = content
    rw [replaceFirstLine_not_found _ hno, joinWith_splitOnChar]
  · intro j hj hcur hfirst
    constructor
    · show joinWith '\n' (replaceFirstLine (markerTok id) idx val.data
        (splitOnChar '\n' content.data)) = _
      rw [replaceFirstLine_found _ j hj hcur hfirst]
    · intro k hk
      rw [List.getD_eq_getElem?_getD, List.getD_eq_getElem?_getD,
        List.getElem?_set_ne (fun h => hk h.symm)]
      exact (List.getD_eq_getElem?_getD _ _ _).symm

/-- Witness for C2: marker `5` sits on line 1 of a two-line document; the
update rewrites exactly line 1, and line 0 is untouched. -/
theorem claim_C2_witness :
    ((updateRowCell "a\n| w<!--ID:5--> | loading |" 5 1 "x").data
      = joinWith '\n' ((splitOnChar '\n' "a\n| w<!--ID:5--> | loading |".data).set 1
          (updateLine ((splitOnChar '\n' "a\n| w<!--ID:5--> | loading |".data).getD 1 [])
            1 "x".data))) ∧
    ((splitOnChar '\n' "a\n| w<!--ID:5--> | loading |".data).set 1
        (updateLine ((splitOnChar '\n' "a\n| w<!--ID:5--> | loading |".data).getD 1 [])
          1 "x".data)).getD 0 []
      = (splitOnChar '\n' "a\n| w<!--ID:5--> | loading |".data).getD 0 [] := by
  have h := (claim_C2 "a\n| w<!--ID:5--> | loading |" 5 1 "x").2 1
    (by decide) (by decide) (by decide)
  exact ⟨h.1, h.2 0 (by decide)⟩

/-- C10: with the marker present (first on line `j`) and a cell index at or
beyond the parsed cell count, `updateRowCell` still terminates (it is a
total function) and extends the row: the rebuilt line's cell array is the
original cells, then `idx - cells.length` empty gap cells, then the new
value at index `idx` — so the extended array has `idx + 1` cells, the gap
positions hold the empty string, and position `idx` holds the new value. -/
theorem claim_C10 (content : String) (id idx : Nat) (val : String) (j : Nat)
    (hj : j < (splitOnChar '\n' content.data).length)
    (hcur : containsTok ((splitOnChar '\n' content.data).getD j [])
      (markerTok id) = true)
    (hfirst : ∀ k, k < j →
      containsTok ((splitOnChar '\n' content.data).getD k [])
        (markerTok id) = false)
    (hbig : (lineCells ((splitOnChar '\n' content.data).getD j [])).length ≤ idx) :
    (updateRowCell content id idx val).data
      = joinWith '\n' ((splitOnChar '\n' content.data).set j
          (("| ").data ++ joinSep (" | ").data
            (lineCells ((splitOnChar '\n' content.data).getD j [])
              ++ List.replicate
                  (idx - (lineCells ((splitOnChar '\n' content.data).getD j [])).length)
                  []
              ++ [val.data])
            ++ (" |").data))
    ∧ (setCell (lineCells ((splitOnChar '\n' content.data).getD j []))
        idx val.data).length = idx + 1
    ∧ (∀ k, (lineCells ((splitOnChar '\n' content.data).getD j [])).length ≤ k →
        k < idx →
        (setCell (lineCells ((splitOnChar '\n' content.data).getD j []))
          idx val.data).getD k ['#'] = [])
    ∧ (setCell (lineCells ((splitOnChar '\n' content.data).getD j []))
        idx val.data).getD idx ['#'] = val.data := by
  have hnotlt : ¬ idx < (lineCells ((splitOnChar '\n' content.data).getD j [])).length := by
    omega
  have hsetCell : setCell (lineCells ((splitOnChar '\n' content.data).getD j []))
      idx val.data
      = lineCells ((splitOnChar '\n' content.data).getD j [])
        ++ List.replicate
            (idx - (lineCells ((splitOnChar '\n' content.data).getD j [])).length) []
        ++ [val.data] := by
    rw [setCell, if_neg hnotlt]
  refine ⟨?_, ?_, ?_, ?_⟩
  · show joinWith '\n' (replaceFirstLine (markerTok id) idx val.data
      (splitOnChar '\n' content.data)) = _
    rw [replaceFirstLine_found _ j hj hcur hfirst, updateLine, hsetCell]
  · rw [hsetCell]
    simp only [List.length_append, List.length_replicate, List.length_singleton]
    omega
  · intro k hk1 hk2
    rw [hsetCell, List.getD_eq_getElem?_getD, List.append_assoc,
      List.getElem?_append_right hk1, List.getElem?_append_left
        (by simp only [List.length_replicate]; omega),
      List.getElem?_replicate, if_pos (by omega)]
    rfl
  · rw [hsetCell, List.getD_eq_getElem?_getD, List.append_assoc,
      List.getElem?_append_right hbig, List.getElem?_append_right
        (by simp only [List.length_replicate]; omega)]
    simp only [List.length_replicate]
    rw [show idx - (lineCells ((splitOnChar '\n' content.data).getD j [])).length
        - (idx - (lineCells ((splitOnChar '\n' content.data).getD j [])).length)
        = 0 from by omega]
    rfl

/-- Witness for C10: marker `3` on the only line, whose parsed cells are
`["w<!--ID:3-->", "a"]` (2 cells), updated at out-of-range index 5. -/
theorem claim_C10_witness :
    ((updateRowCell "| w<!--ID:3--> | a |" 3 5 "x").data
      = joinWith '\n' ((splitOnChar '\n' "| w<!--ID:3--> | a |".data).set 0
          (("| ").data ++ joinSep (" | ").data
            (lineCells ((splitOnChar '\n' "| w<!--ID:3--> | a |".data).getD 0 [])
              ++ List.replicate
                  (5 - (lineCells ((splitOnChar '\n' "| w<!--ID:3--> | a |".data).getD 0 [])).length)
                  []
              ++ ["x".data])
            ++ (" |").data)))
    ∧ (setCell (lineCells ((splitOnChar '\n' "| w<!--ID:3--> | a |".data).getD 0 []))
        5 "x".data).length = 5 + 1
    ∧ (setCell (lineCells ((splitOnChar '\n' "| w<!--ID:3--> | a |".data).getD 0 []))
        5 "x".data).getD 3 ['#'] = []
    ∧ (setCell (lineCells ((splitOnChar '\n' "| w<!--ID:3--> | a |".data).getD 0 []))
        5 "x".data).getD 5 ['#'] = "x".data := by
  have h := claim_C10 "| w<!--ID:3--> | a |" 3 5 "x" 0
    (by decide) (by decide) (by decide) (by decide)
  exact ⟨h.1, h.2.1, h.2.2.1 3 (by decide) (by decide), h.2.2.2⟩

/-! ## `appendRowToTable`: the trailing-blank-row loop -/

theorem stripLoop_drop : ∀ r : List (List Char),
    ∃ k, k ≤ r.length ∧ stripLoop r = r.drop k ∧
      ∀ l ∈ r.take k, isEmptyRowCs l = true := by
  intro r
  induction r with
  | nil => exact ⟨0, by simp, rfl, by simp⟩
  | cons x xs ih =>
    by_cases hc : (decide (2 < xs.length + 1) && isEmptyRowCs x) = true
    · obtain ⟨k, hk, hs, hall⟩ := ih
      refine ⟨k + 1, by simpa using Nat.succ_le_succ hk, ?_, ?_⟩
      · rw [stripLoop, if_pos hc, hs, List.drop_succ_cons]
      · intro l hl
        rw [List.take_succ_cons] at hl
        rcases (List.mem_cons).1 hl with h' | h'
        · rw [h']
          rw [Bool.and_eq_true] at hc
          exact hc.2
        · exact hall l h'
    · exact ⟨0, by simp, by rw [stripLoop, if_neg hc, List.drop_zero], by simp⟩

theorem stripLoop_min_length : ∀ r : List (List Char),
    min 2 r.length ≤ (stripLoop r).length := by
  intro r
  induction r with
  | nil => simp [stripLoop]
  | cons x xs ih =>
    by_cases hc : (decide (2 < xs.length + 1) && isEmptyRowCs x) = true
    · rw [stripLoop, if_pos hc]
      have h2 : 2 < xs.length + 1 := by
        rw [Bool.and_eq_true] at hc
        exact of_decide_eq_true hc.1
      have : min 2 xs.length = 2 := by omega
      rw [this] at ih
      simp only [List.length_cons]
      omega
    · rw [stripLoop, if_neg hc]
      simp only [List.length_cons]
      omega

theorem stripLoop_stop : ∀ r : List (List Char),
    (stripLoop r).length ≤ 2 ∨ isEmptyRowCs ((stripLoop r).headD []) = false := by
  intro r
  induction r with
  | nil => left; simp [stripLoop]
  | cons x xs ih =>
    by_cases hc : (decide (2 < xs.length + 1) && isEmptyRowCs x) = true
    · rw [stripLoop, if_pos hc]
      exact ih
    · rw [stripLoop, if_neg hc]
      rw [Bool.and_eq_true, not_and_or] at hc
      rcases hc with h | h
      · left
        simp only [decide_eq_true_eq] at h
        simp only [List.length_cons]
        omega
      · right
        simpa using h

theorem stripTrailingEmptyRows_spec (ls : List (List Char)) :
    (∃ k, k ≤ ls.length ∧ stripTrailingEmptyRows ls = ls.take k) ∧
    (∀ l ∈ ls.drop (stripTrailingEmptyRows ls).length, isEmptyRowCs l = true) ∧
    min 2 ls.length ≤ (stripTrailingEmptyRows ls).length ∧
    ((stripTrailingEmptyRows ls).length ≤ 2 ∨
      isEmptyRowCs ((stripTrailingEmptyRows ls).getLastD []) = false) := by
  obtain ⟨k, hk, hs, hall⟩ := stripLoop_drop ls.reverse
  rw [List.length_reverse] at hk
  have hb : stripTrailingEmptyRows ls = ls.take (ls.length - k) := by
    rw [stripTrailingEmptyRows, hs, List.reverse_drop, List.reverse_reverse,
      List.length_reverse]
  have hblen : (stripTrailingEmptyRows ls).length = ls.length - k := by
    rw [hb, List.length_take]
    omega
  refine ⟨⟨ls.length - k, by omega, hb⟩, ?_, ?_, ?_⟩
  · intro l hl
    apply hall
    rw [hblen] at hl
    have : ls.drop (ls.length - k) = (ls.reverse.take k).reverse := by
      rw [List.reverse_take, List.reverse_reverse, List.length_reverse]
    rw [this, List.mem_reverse] at hl
    exact hl
  · rw [stripTrailingEmptyRows, List.length_reverse]
    have := stripLoop_min_length ls.reverse
    rw [List.length_reverse] at this
    exact this
  · rcases stripLoop_stop ls.reverse with h | h
    · left
      rw [stripTrailingEmptyRows, List.length_reverse]
      exact h
    · right
      rw [stripTrailingEmptyRows, List.getLastD_eq_getLast?,
        List.getLast?_reverse]
      rw [List.headD_eq_head?] at h
      exact h

/-- C5: `appendRowToTable` pops the trailing line while it is an all-blank
row and more than 2 lines remain, then appends the new row.  Writing `b`
for the stripped baseline: the result's lines are exactly `b ++ [newRow]`
(one more line than the baseline); `b` is a prefix of the original lines;
everything dropped was an all-blank row; with at least header + separator
present the baseline keeps at least 2 lines (the table never shrinks below
header + separator); and the loop stopped either at the 2-line floor or at
a non-blank last line. -/
theorem claim_C5 (tableText newRow : String) (hnr : '\n' ∉ newRow.data) :
    (appendRowToTable tableText newRow).data
      = joinWith '\n' (stripTrailingEmptyRows (splitOnChar '\n' tableText.data)
          ++ [newRow.data]) ∧
    splitOnChar '\n' (appendRowToTable tableText newRow).data
      = stripTrailingEmptyRows (splitOnChar '\n' tableText.data) ++ [newRow.data] ∧
    (splitOnChar '\n' (appendRowToTable tableText newRow).data).length
      = (stripTrailingEmptyRows (splitOnChar '\n' tableText.data)).length + 1 ∧
    (∃ k, k ≤ (splitOnChar '\n' tableText.data).length ∧
      stripTrailingEmptyRows (splitOnChar '\n' tableText.data)
        = (splitOnChar '\n' tableText.data).take k) ∧
    (∀ l ∈ (splitOnChar '\n' tableText.data).drop
        (stripTrailingEmptyRows (splitOnChar '\n' tableText.data)).length,
      isEmptyRowCs l = true) ∧
    (2 ≤ (splitOnChar '\n' tableText.data).length →
      2 ≤ (stripTrailingEmptyRows (splitOnChar '\n' tableText.data)).length) ∧
    ((stripTrailingEmptyRows (splitOnChar '\n' tableText.data)).length ≤ 2 ∨
      isEmptyRowCs ((stripTrailingEmptyRows
        (splitOnChar '\n' tableText.data)).getLastD []) = false) := by
  obtain ⟨⟨k, hk, hpre⟩, hdropped, hmin, hstop⟩ :=
    stripTrailingEmptyRows_spec (splitOnChar '\n' tableText.data)
  have hlines : splitOnChar '\n' (joinWith '\n'
      (stripTrailingEmptyRows (splitOnChar '\n' tableText.data) ++ [newRow.data]))
      = stripTrailingEmptyRows (splitOnChar '\n' tableText.data) ++ [newRow.data] := by
    apply splitOnChar_joinWith (by simp)
    intro l hl
    rcases (List.mem_append).1 hl with h | h
    · apply not_mem_of_mem_splitOnChar
      rw [hpre] at h
      exact (List.take_sublist _ _).subset h
    · rw [List.mem_singleton] at h
      rw [h]
      exact hnr
  refine ⟨rfl, hlines, ?_, ⟨k, hk, hpre⟩, hdropped, ?_, hstop⟩
  · show (splitOnChar '\n' (joinWith '\n' _)).length = _
    rw [hlines, List.length_append, List.length_singleton]
  · intro h2
    omega

/-- Witness for C5: a 3-line table whose last row is all-blank, plus a
newline-free new row. -/
theorem claim_C5_witness :
    (appendRowToTable "| h |\n| --- |\n|  |" "| new |").data
      = joinWith '\n' (stripTrailingEmptyRows
          (splitOnChar '\n' "| h |\n| --- |\n|  |".data) ++ ["| new |".data]) ∧
    splitOnChar '\n' (appendRowToTable "| h |\n| --- |\n|  |" "| new |").data
      = stripTrailingEmptyRows (splitOnChar '\n' "| h |\n| --- |\n|  |".data)
          ++ ["| new |".data] ∧
    (splitOnChar '\n' (appendRowToTable "| h |\n| --- |\n|  |" "| new |").data).length
      = (stripTrailingEmptyRows (splitOnChar '\n' "| h |\n| --- |\n|  |".data)).length
          + 1 ∧
    (∃ k, k ≤ (splitOnChar '\n' "| h |\n| --- |\n|  |".data).length ∧
      stripTrailingEmptyRows (splitOnChar '\n' "| h |\n| --- |\n|  |".data)
        = (splitOnChar '\n' "| h |\n| --- |\n|  |".data).take k) ∧
    (∀ l ∈ (splitOnChar '\n' "| h |\n| --- |\n|  |".data).drop
        (stripTrailingEmptyRows (splitOnChar '\n' "| h |\n| --- |\n|  |".data)).length,
      isEmptyRowCs l = true) ∧
    (2 ≤ (splitOnChar '\n' "| h |\n| --- |\n|  |".data).length →
      2 ≤ (stripTrailingEmptyRows (splitOnChar '\n' "| h |\n| --- |\n|  |".data)).length) ∧
    ((stripTrailingEmptyRows (splitOnChar '\n' "| h |\n| --- |\n|  |".data)).length ≤ 2 ∨
      isEmptyRowCs ((stripTrailingEmptyRows
        (splitOnChar '\n' "| h |\n| --- |\n|  |".data)).getLastD []) = false) :=
  claim_C5 "| h |\n| --- |\n|  |" "| new |" (by decide)

/-! ## The Gateway boundary -/

theorem mem_of_mem_trimCs {x : Char} {cs : List Char} (h : x ∈ trimCs cs) :
    x ∈ cs := by
  rw [trimCs, List.mem_reverse] at h
  have h1 := (List.dropWhile_sublist _).subset h
  rw [List.mem_reverse] at h1
  exact (List.dropWhile_sublist _).subset h1

theorem headD_mem_splitOnChar (c : Char) (cs : List Char) :
    (splitOnChar c cs).headD [] ∈ splitOnChar c cs := by
  rcases h : splitOnChar c cs with _ | ⟨h0, t0⟩
  · exact absurd h (splitOnChar_ne_nil c cs)
  · rw [List.headD_cons]
    exact List.mem_cons_self _ _

/-- C9: the committed cell value is the first line of the gateway text,
trimmed (taking the first line again in the `.then` callback changes
nothing, since the trimmed first line contains no newline); a failed
backend call yields the empty string, and the Cell Resolver commit is
still attempted with that empty string — on the concrete document it
overwrites the `"loading"` placeholder with an empty cell. -/
theorem claim_C9 (content : String) (id idx : Nat)
    (backend : Except String String) :
    (∀ raw, backend = Except.ok raw →
      resolveGatewayResult content id idx backend
        = updateRowCell content id idx
            ⟨trimCs ((splitOnChar '\n' raw.data).headD [])⟩)
    ∧ (∀ e, backend = Except.error e →
      resolveGatewayResult content id idx backend
        = updateRowCell content id idx "")
    ∧ resolveGatewayResult "| w<!--ID:7--> | loading |" 7 1 (Except.error "net")
        = "| w<!--ID:7--> |  |" := by
  refine ⟨?_, ?_, by decide⟩
  · intro raw hraw
    subst hraw
    show updateRowCell content id idx
      ⟨(splitOnChar '\n' (trimCs ((splitOnChar '\n' raw.data).headD []))).headD []⟩
      = _
    have hnl : '\n' ∉ trimCs ((splitOnChar '\n' raw.data).headD []) := by
      intro hmem
      exact not_mem_of_mem_splitOnChar (headD_mem_splitOnChar '\n' raw.data)
        (mem_of_mem_trimCs hmem)
    rw [splitOnChar_of_not_mem hnl, List.headD_cons]
  · intro e he
    subst he
    rfl

/-- Witness for C9: a successful backend reply `" hi \nmore"` commits the
trimmed first line (`"hi"`). -/
theorem claim_C9_witness :
    resolveGatewayResult "| q<!--ID:9--> | loading |" 9 1 (Except.ok " hi \nmore")
      = updateRowCell "| q<!--ID:9--> | loading |" 9 1
          ⟨trimCs ((splitOnChar '\n' " hi \nmore".data).headD [])⟩ :=
  (claim_C9 "| q<!--ID:9--> | loading |" 9 1 (Except.ok " hi \nmore")).1
    " hi \nmore" rfl

/-- C3, the code at the failing input: the table
`"| Word |\n| --- |\n| cat |"` has `"cat"` as the key cell of its data row,
yet `wordExistsInTable` answers `false` — the function compares `cells[0]`,
the always-empty segment before the line's leading pipe, instead of the key
cell (its own comment says it checks the first column, and the third
revision of the same file compares `cells[1]`). -/
theorem claim_C3_code_eval :
    wordExistsInTable "| Word |\n| --- |\n| cat |" "cat" = false ∧
    wordExistsInTable "| Word |\n| --- |\n| CAT |" "cat" = false ∧
    wordExistsInTable "| Word |\n| --- |\n| cat |" "" = true := by
  refine ⟨by decide, by decide, by decide⟩

theorem splitOnChar_headD_takeWhile (c : Char) (cs : List Char) :
    (splitOnChar c cs).headD [] = cs.takeWhile (fun x => !(x == c)) := by
  induction cs with
  | nil => rfl
  | cons x xs ih =>
    by_cases hx : x = c
    · subst hx
      rw [splitOnChar, if_pos rfl, List.headD_cons, List.takeWhile_cons]
      simp
    · rw [splitOnChar, if_neg hx, List.takeWhile_cons]
      rcases hsp : splitOnChar c xs with _ | ⟨h0, t0⟩
      · exact absurd hsp (splitOnChar_ne_nil c xs)
      · rw [hsp, List.headD_cons] at ih
        rw [List.headD_cons, if_pos (by simp [hx]), ih]

theorem trimCs_all_ws {ws : List Char} (h : ∀ x ∈ ws, isWs x = true) :
    trimCs ws = [] := by
  rw [trimCs, List.dropWhile_eq_nil_iff.2 h]
  rfl

theorem trim_head_pipe {line : List Char}
    (h : (trimCs line).headD ' ' = '|') :
    ∃ ws rest, line = ws ++ '|' :: rest ∧ ∀ x ∈ ws, isWs x = true := by
  have htne : trimCs line ≠ [] := by
    intro he
    rw [he] at h
    simp at h
  obtain ⟨t, ht⟩ : ∃ t, t ++ (line.dropWhile isWs).reverse.dropWhile isWs
      = (line.dropWhile isWs).reverse := List.dropWhile_suffix _
  have hu : line.dropWhile isWs = trimCs line ++ t.reverse := by
    have h2 := congrArg List.reverse ht
    rw [List.reverse_append, List.reverse_reverse] at h2
    rw [← h2]
    rfl
  rcases htr : trimCs line with _ | ⟨a, tr⟩
  · exact absurd htr htne
  · have ha : a = '|' := by
      rw [htr, List.headD_cons] at h
      exact h
    refine ⟨line.takeWhile isWs, tr ++ t.reverse, ?_, ?_⟩
    · rw [← List.takeWhile_append_dropWhile isWs line] at hu ⊢
      have h3 : line.dropWhile isWs = ('|' : Char) :: (tr ++ t.reverse) := by
        rw [List.takeWhile_append_dropWhile] at hu
        rw [hu, htr, ha]
        rfl
      rw [List.takeWhile_append_dropWhile, ← h3]
      exact (List.takeWhile_append_dropWhile isWs line).symm
    · exact fun x hx => List.mem_takeWhile_imp hx

theorem takeWhile_all_append {p : Char → Bool} {ws : List Char} {b : Char}
    {rest : List Char} (hws : ∀ x ∈ ws, p x = true) (hb : p b = false) :
    (ws ++ b :: rest).takeWhile p = ws := by
  induction ws with
  | nil =>
    rw [List.nil_append, List.takeWhile_cons, hb]
    rfl
  | cons w ws' ih =>
    rw [List.cons_append, List.takeWhile_cons, hws w (List.mem_cons_self _ _),
      if_pos rfl, ih (fun x hx => hws x (List.mem_cons_of_mem _ hx))]

/-- The duplicate check is dead for every real word: whenever the word is
nonempty, `wordExistsInTable` is `false`, because the compared piece
`cells[0]` (everything before the line's first pipe) always trims to the
empty string on a line whose trimmed text starts with `|`. -/
theorem wordExistsInTable_false_of_ne_nil (tableText word : String)
    (hw : word.data ≠ []) : wordExistsInTable tableText word = false := by
  rw [wordExistsInTable, List.any_eq_false]
  intro line hline
  have hline2 : line ∈ (splitOnChar '\n' tableText.data).filter
      (fun l => (trimCs l).headD ' ' == '|') :=
    (List.drop_sublist _ _).subset hline
  have hfilter : ((trimCs line).headD ' ' == '|') = true :=
    (List.mem_filter.1 hline2).2
  rw [beq_iff_eq] at hfilter
  rw [Bool.not_eq_true]
  show (decide (1 < ((splitOnChar '|' line).map trimCs).length)
    && (lowerCs (((splitOnChar '|' line).map trimCs).headD [])
        == lowerCs word.data)) = false
  obtain ⟨ws, rest, hdecomp, hws⟩ := trim_head_pipe hfilter
  have hcell0 : ((splitOnChar '|' line).map trimCs).headD [] = [] := by
    rcases hsp : splitOnChar '|' line with _ | ⟨h0, t0⟩
    · exact absurd hsp (splitOnChar_ne_nil '|' line)
    · rw [List.map_cons, List.headD_cons]
      have : h0 = line.takeWhile (fun x => !(x == '|')) := by
        have := splitOnChar_headD_takeWhile '|' line
        rw [hsp, List.headD_cons] at this
        exact this
      rw [this, hdecomp, takeWhile_all_append
        (fun x hx => by simp [show x ≠ '|' from fun he => by
          have := hws x hx; rw [he] at this; exact absurd this (by decide)])
        (by simp)]
      exact trimCs_all_ws hws
  rw [hcell0]
  have hlow : lowerCs word.data ≠ [] := by
    intro he
    rw [lowerCs, List.map_eq_nil_iff] at he
    exact hw he
  have hbeq : (lowerCs [] == lowerCs word.data) = false := by
    rw [show lowerCs [] = [] from rfl]
    rcases hl : lowerCs word.data with _ | ⟨y, ys⟩
    · exact absurd hl hlow
    · rfl
  rw [hbeq, Bool.and_false]

/-- C4, the code at the failing input: re-inserting `"apple"` into a table
that already holds `"apple"` in its key column is NOT rejected — the dead
duplicate check lets it through and the document is mutated with a second
`apple` row (the claim and the spec demand an abort with zero mutation). -/
theorem claim_C4_code_eval :
    insertWordRow "| Word |\n| --- |\n| apple |" 0 "apple" 1
      = some "| Word |\n| --- |\n| apple |\n| apple<!--ID:1--> |" ∧
    insertWordRow "| Word |\n| --- |\n| apple |" 0 "apple" 1
      ≠ some "| Word |\n| --- |\n| apple |" ∧
    insertWordRow "| Word |\n| --- |\n| apple |" 0 "apple" 1 ≠ none := by
  refine ⟨by decide, by decide, by decide⟩

end TranslatorPlugin
